import Mathlib

/-!
Verification of the thread-scheduling and synchronization core
(`src/threads/thread.c`, `src/threads/synch.c`).

The embedding below translates the C data structures and the functions the
claims are about into executable Lean definitions:

* `struct thread`'s scheduling-relevant fields become `ThreadRec`
  (`priority`, `donation_priority`, `thread_lock`, `lock_list`);
* `struct semaphore` becomes `Sema` (a counter plus a waiter list of
  thread ids, with the per-thread record looked up in a map);
* `struct lock`'s `holder` / `priority` / inner semaphore value become
  `LockSt` and `RLock`;
* machine `int`s are modelled as `Int` (the C code performs no arithmetic
  that can overflow: it only takes maxima of priorities and increments a
  semaphore counter).

The generic doubly-linked-list routines of `lib/kernel/list.c`
(`list_max`, `list_sort`, …) are not part of the four source files; where
their exact behaviour matters they are modelled from the spec, as noted
in the corresponding doc comments.
-/

/-! ## Priority constants (threads/thread.h) -/

def PRI_MIN : Int := 0

def PRI_DEFAULT : Int := 31

def PRI_MAX : Int := 63

/-! ## Thread records (threads/thread.h, scheduling-relevant fields) -/

/-- The fields of `struct thread` that the scheduling and synchronization
code reads: the base `priority`, the `donation_priority`, the lock the
thread is blocked on (`thread_lock`, null modelled as `none`) and the list
of ids of held locks (`lock_list`). -/
structure ThreadRec where
  priority : Int
  donation_priority : Int
  thread_lock : Option Nat := none
  lock_list : List Nat := []
  deriving Repr, DecidableEq

/-- Effective priority: `max(priority, donation_priority)`, the expression
computed by `thread_get_priority` and inside `priority_compare`
(threads/thread.c). -/
def effectivePriority (t : ThreadRec) : Int :=
  max t.priority t.donation_priority

/-- `priority_compare` (threads/thread.c): true when the first thread's
effective priority is strictly below the second's. -/
def priority_compare (t1 t2 : ThreadRec) : Bool :=
  effectivePriority t1 < effectivePriority t2

/-! ## `list_max` with removal

`sema_up` and `next_thread_to_run` both call
`list_max(list, thread_priority_compare, NULL)` and then `list_remove` the
returned element.  `list_max` lives in `lib/kernel/list.c`, which is not
among the source files. -/

/-- Modelled from the spec: `list_max` of `lib/kernel/list.c` is not under
`src/`.  The spec says the scan keeps the entry of maximum key and that
"ties are broken by list position (the most recently inserted candidate
wins under the scanning order)", so among equal maxima the later element
is selected.  `extractMax` returns that element together with the list
with the element removed (`list_remove`), other elements keeping their
order.  Returns `none` on the empty list. -/
def extractMax (key : α → Int) : List α → Option (α × List α)
  | [] => none
  | x :: xs =>
    match extractMax key xs with
    | none => some (x, [])
    | some (r, rest) =>
      if key r < key x then some (x, xs)
      else some (r, x :: rest)

theorem extractMax_nil (key : α → Int) : extractMax key ([] : List α) = none := rfl

theorem extractMax_isSome (key : α → Int) (l : List α) (h : l ≠ []) :
    ∃ r rest, extractMax key l = some (r, rest) := by
  cases l with
  | nil => exact absurd rfl h
  | cons x xs =>
    cases hx : extractMax key xs with
    | none => exact ⟨x, [], by simp [extractMax, hx]⟩
    | some p =>
      obtain ⟨r, rest⟩ := p
      by_cases hk : key r < key x
      · exact ⟨x, xs, by simp [extractMax, hx, hk]⟩
      · exact ⟨r, x :: rest, by simp [extractMax, hx, hk]⟩

/-- Decomposition property of `extractMax`: the chosen element sits at its
original position, earlier elements have keys `≤` the chosen key, later
elements have keys strictly `<` (so the chosen element is the latest one
attaining the maximum), and the returned rest is the original list with
exactly that occurrence removed. -/
theorem extractMax_spec (key : α → Int) (l : List α) (r : α) (rest : List α)
    (h : extractMax key l = some (r, rest)) :
    ∃ pre post, l = pre ++ r :: post ∧ rest = pre ++ post ∧
      (∀ y ∈ pre, key y ≤ key r) ∧ (∀ y ∈ post, key y < key r) := by
  induction l generalizing r rest with
  | nil => simp [extractMax] at h
  | cons x xs ih =>
    cases hx : extractMax key xs with
    | none =>
      cases xs with
      | nil =>
        simp [extractMax] at h
        obtain ⟨rfl, rfl⟩ := h
        exact ⟨[], [], by simp⟩
      | cons y ys =>
        obtain ⟨r', rest', hr'⟩ := extractMax_isSome key (y :: ys) (by simp)
        rw [hr'] at hx; cases hx
    | some p =>
      obtain ⟨r', rest'⟩ := p
      by_cases hk : key r' < key x
      · simp [extractMax, hx, hk] at h
        obtain ⟨h1, h2⟩ := h
        subst h1; subst h2
        obtain ⟨pre, post, hALL⟩ := ih r' rest' hx
        obtain ⟨hsplit, _, hpre, hpost⟩ := hALL
        refine ⟨[], xs, by simp, by simp, by simp, ?_⟩
        intro y hy
        rw [hsplit] at hy
        rcases List.mem_append.1 hy with hy | hy
        · exact lt_of_le_of_lt (hpre y hy) hk
        · rcases List.mem_cons.1 hy with rfl | hy
          · exact hk
          · exact lt_trans (hpost y hy) hk
      · simp [extractMax, hx, hk] at h
        obtain ⟨h1, h2⟩ := h
        subst h1; subst h2
        obtain ⟨pre, post, hsplit, hrest, hpre, hpost⟩ := ih r' rest' hx
        refine ⟨x :: pre, post, by simp [hsplit], by simp [hrest], ?_, hpost⟩
        intro y hy
        rcases List.mem_cons.1 hy with rfl | hy
        · exact le_of_not_lt hk
        · exact hpre y hy

theorem extractMax_mem (key : α → Int) (l : List α) (r : α) (rest : List α)
    (h : extractMax key l = some (r, rest)) : r ∈ l := by
  obtain ⟨pre, post, hsplit, _, _, _⟩ := extractMax_spec key l r rest h
  rw [hsplit]; simp

theorem extractMax_ge (key : α → Int) (l : List α) (r : α) (rest : List α)
    (h : extractMax key l = some (r, rest)) : ∀ y ∈ l, key y ≤ key r := by
  obtain ⟨pre, post, hsplit, _, hpre, hpost⟩ := extractMax_spec key l r rest h
  intro y hy
  rw [hsplit] at hy
  rcases List.mem_append.1 hy with hy | hy
  · exact hpre y hy
  · rcases List.mem_cons.1 hy with rfl | hy
    · exact le_refl _
    · exact le_of_lt (hpost y hy)

/-! ## Semaphores (threads/synch.c) -/

/-- `struct semaphore`: the counter `value` plus the waiter list.  Waiters
are thread ids; their records are looked up in a map `th : Nat → ThreadRec`
passed to the operations (in C the list links the records directly). -/
structure Sema where
  value : Nat
  waiters : List Nat
  deriving Repr, DecidableEq

/-- `sema_init` (synch.c): sets the counter, empties the waiter list. -/
def sema_init (value : Nat) : Sema :=
  { value := value, waiters := [] }

/-- The key `sema_up` maximizes over: `thread_priority_compare` compares
the effective priorities of the two list entries, so the selected waiter
is the one of maximal `max(priority, donation_priority)`. -/
def semaKey (th : Nat → ThreadRec) (t : Nat) : Int :=
  effectivePriority (th t)

/-- `sema_up` (synch.c): with interrupts disabled, if the waiter list is
non-empty, pick the entry of maximal effective priority
(`list_max(&sema->waiters, thread_priority_compare, NULL)`), `list_remove`
it and `thread_unblock` it; then increment `value`.  Returns the new
semaphore state together with the unblocked thread id, if any. -/
def sema_up (th : Nat → ThreadRec) (s : Sema) : Sema × Option Nat :=
  match extractMax (semaKey th) s.waiters with
  | none => ({ s with value := s.value + 1 }, none)
  | some (t, rest) => ({ value := s.value + 1, waiters := rest }, some t)

/-- One non-blocking slice of `sema_down` (synch.c) as seen by a thread
that finds `value > 0`: decrement the counter and return.  (The blocking
path appends the caller to `waiters` and blocks; it is modelled in the
`S9`/`Step9` transition system below.) -/
def sema_down_fast (s : Sema) (_h : s.value > 0) : Sema :=
  { s with value := s.value - 1 }

/-- `sema_try_down` (synch.c): decrement and succeed when `value > 0`,
otherwise leave the semaphore untouched and fail. -/
def sema_try_down (s : Sema) : Sema × Bool :=
  if s.value > 0 then ({ s with value := s.value - 1 }, true) else (s, false)

/-- Repeated `sema_up`: the list of thread ids unblocked by `n` successive
`sema_up` calls (no thread re-enters the waiter list in between), i.e. the
wake order of the blocked threads. -/
def wakeOrder (th : Nat → ThreadRec) : Nat → Sema → List Nat
  | 0, _ => []
  | n + 1, s =>
    match sema_up th s with
    | (s', none) => wakeOrder th n s'
    | (s', some t) => t :: wakeOrder th n s'

/-- The five threads of the spec's semaphore scenario: thread ids 0..4
with base priorities 5, 15, 25, 35, 45 and no donations. -/
def fiveThreads : Nat → ThreadRec := fun t =>
  { priority := 5 + 10 * (t : Int), donation_priority := PRI_MIN }

/-- The five threads blocked on the semaphore in arrival order, value 0. -/
def fiveBlocked : Sema := { value := 0, waiters := [0, 1, 2, 3, 4] }

/-- C3: for every semaphore with a non-empty waiter list, `sema_up`
selects, removes and unblocks a waiter of maximal effective priority
(evaluated against the thread map at the moment of the call, so donations
received while blocked are honored) and increments `value`; and five
threads of priorities 5,15,25,35,45 blocked in `sema_down` are woken by
five `sema_up` calls in the order 45,35,25,15,5. -/
theorem sema_up_wakes_highest_priority (th : Nat → ThreadRec) (s : Sema)
    (h : s.waiters ≠ []) :
    (∃ t rest, sema_up th s = ({ value := s.value + 1, waiters := rest }, some t) ∧
      t ∈ s.waiters ∧
      (∀ u ∈ s.waiters, effectivePriority (th u) ≤ effectivePriority (th t)) ∧
      (∃ pre post, s.waiters = pre ++ t :: post ∧ rest = pre ++ post)) ∧
    wakeOrder fiveThreads 5 fiveBlocked = [4, 3, 2, 1, 0] ∧
    (wakeOrder fiveThreads 5 fiveBlocked).map
      (fun t => effectivePriority (fiveThreads t)) = [45, 35, 25, 15, 5] := by
  refine ⟨?_, by decide, by decide⟩
  obtain ⟨t, rest, hex⟩ := extractMax_isSome (semaKey th) s.waiters h
  obtain ⟨pre, post, hsplit, hrest, _, _⟩ := extractMax_spec _ _ _ _ hex
  refine ⟨t, rest, ?_, extractMax_mem _ _ _ _ hex, extractMax_ge _ _ _ _ hex,
    pre, post, hsplit, hrest⟩
  simp [sema_up, hex]

/-- Witness for C3 at a concrete input: the five-thread semaphore itself. -/
theorem sema_up_wakes_highest_priority_witness :
    (∃ t rest,
      sema_up fiveThreads fiveBlocked = ({ value := 0 + 1, waiters := rest }, some t) ∧
      t ∈ fiveBlocked.waiters ∧
      (∀ u ∈ fiveBlocked.waiters,
        effectivePriority (fiveThreads u) ≤ effectivePriority (fiveThreads t)) ∧
      (∃ pre post, fiveBlocked.waiters = pre ++ t :: post ∧ rest = pre ++ post)) ∧
    wakeOrder fiveThreads 5 fiveBlocked = [4, 3, 2, 1, 0] ∧
    (wakeOrder fiveThreads 5 fiveBlocked).map
      (fun t => effectivePriority (fiveThreads t)) = [45, 35, 25, 15, 5] :=
  sema_up_wakes_highest_priority fiveThreads fiveBlocked (by decide)

/-- A thread map of default-priority threads with no donations. -/
def thDefault : Nat → ThreadRec := fun _ =>
  { priority := PRI_DEFAULT, donation_priority := PRI_MIN }

/-- C5 counterexample: for the semaphore with `value = 0` and two waiters,
`sema_up` removes one waiter and increments `value`, so immediately after
`sema_up` returns (interrupts re-enabled, woken waiter not yet resumed)
`value > 0` holds while the waiter list is still non-empty — the claimed
invariant fails exactly in the window the claim says it holds. -/
theorem sema_value_pos_waiters_nonempty_after_up :
    0 < (sema_up thDefault { value := 0, waiters := [0, 1] }).1.value ∧
    (sema_up thDefault { value := 0, waiters := [0, 1] }).1.waiters ≠ [] := by
  decide

/-- C5 amended: for every semaphore holding at most one waiter, the
invariant `value > 0 → waiters = []` is preserved by `sema_up`; with two
or more waiters `sema_up` leaves `value = 1` with a non-empty waiter list
until the woken waiter resumes inside `sema_down` and decrements the
counter. -/
theorem sema_up_keeps_value_waiters_inv (th : Nat → ThreadRec) (s : Sema)
    (hlen : s.waiters.length ≤ 1) :
    (sema_up th s).1.value > 0 → (sema_up th s).1.waiters = [] := by
  intro _
  match hw : s.waiters with
  | [] => simp [sema_up, hw, extractMax]
  | [t] => simp [sema_up, hw, extractMax]
  | t :: u :: ts => rw [hw] at hlen; simp at hlen

/-- Witness for the amended C5 at a concrete input. -/
theorem sema_up_keeps_value_waiters_inv_witness :
    ([7] : List Nat).length ≤ 1 ∧
    ((sema_up thDefault { value := 0, waiters := [7] }).1.value > 0 →
      (sema_up thDefault { value := 0, waiters := [7] }).1.waiters = []) :=
  ⟨by decide,
    sema_up_keeps_value_waiters_inv thDefault { value := 0, waiters := [7] }
      (by decide)⟩

/-! ## Pick-next policy (threads/thread.c) -/

/-- `next_thread_to_run` (threads/thread.c): if the ready list is empty
return the idle thread, otherwise `list_max` the ready list with
`thread_priority_compare`, `list_remove` the chosen entry and return it.
The ready list holds thread ids; `idleT` is the idle thread's id. -/
def next_thread_to_run (th : Nat → ThreadRec) (idleT : Nat)
    (ready : List Nat) : Nat × List Nat :=
  match extractMax (semaKey th) ready with
  | none => (idleT, [])
  | some (t, rest) => (t, rest)

/-- C6: on an empty ready list `next_thread_to_run` chooses the idle
thread; on a non-empty ready list it removes and returns an entry of
maximal effective priority, and every entry after the chosen one is
strictly lower, i.e. among equal maxima the most recently inserted
candidate wins (approximate round-robin within a priority band). -/
theorem next_thread_to_run_picks_max (th : Nat → ThreadRec) (idleT : Nat)
    (ready : List Nat) (h : ready ≠ []) :
    next_thread_to_run th idleT [] = (idleT, []) ∧
    ∃ t rest pre post, next_thread_to_run th idleT ready = (t, rest) ∧
      ready = pre ++ t :: post ∧ rest = pre ++ post ∧
      (∀ y ∈ ready, effectivePriority (th y) ≤ effectivePriority (th t)) ∧
      (∀ y ∈ post, effectivePriority (th y) < effectivePriority (th t)) := by
  refine ⟨rfl, ?_⟩
  obtain ⟨t, rest, hex⟩ := extractMax_isSome (semaKey th) ready h
  obtain ⟨pre, post, hsplit, hrest, _, hpost⟩ := extractMax_spec _ _ _ _ hex
  exact ⟨t, rest, pre, post, by simp [next_thread_to_run, hex],
    hsplit, hrest, extractMax_ge _ _ _ _ hex, hpost⟩

/-- Witness for C6 at a concrete input: ready list `[0, 1]` under the
five-thread priority map, idle thread id 9. -/
theorem next_thread_to_run_picks_max_witness :
    ([0, 1] : List Nat) ≠ [] ∧
    (next_thread_to_run fiveThreads 9 [] = (9, []) ∧
      ∃ t rest pre post, next_thread_to_run fiveThreads 9 [0, 1] = (t, rest) ∧
        [0, 1] = pre ++ t :: post ∧ rest = pre ++ post ∧
        (∀ y ∈ [0, 1],
          effectivePriority (fiveThreads y) ≤ effectivePriority (fiveThreads t)) ∧
        (∀ y ∈ post,
          effectivePriority (fiveThreads y) < effectivePriority (fiveThreads t))) :=
  ⟨by decide, next_thread_to_run_picks_max fiveThreads 9 [0, 1] (by decide)⟩

/-! ## Locks (threads/synch.c) -/

/-- `struct lock`: the holder (null modelled as `none`), the lock's
`priority` ceiling, and the value of the embedded binary semaphore.  The
inner semaphore's waiter list plays no role in the claims about locks and
is left to the `Sema`/`S9` models. -/
structure RLock where
  holder : Option Nat := none
  priority : Int := PRI_MIN
  sema_value : Nat := 1
  deriving Repr, DecidableEq

/-- `lock_init` (synch.c): no holder, inner semaphore value 1, priority
ceiling `PRI_MIN`. -/
def lock_init : RLock :=
  { holder := none, priority := PRI_MIN, sema_value := 1 }

/-- `lock_try_acquire` (synch.c): `sema_try_down` on the inner semaphore;
on success record the caller as holder (the lock is also pushed on the
caller's `lock_list`, modelled in `lock_release`'s thread map). -/
def lock_try_acquire (t : Nat) (L : RLock) : RLock × Bool :=
  if L.sema_value > 0 then
    ({ L with holder := some t, sema_value := L.sema_value - 1 }, true)
  else (L, false)

/-- `lock_acquire` (synch.c), as observed on the lock itself at the
moment the call returns: the fast path is a successful `lock_try_acquire`;
on the slow path the caller donates, blocks in `sema_down` until the
releaser's `sema_up` makes the inner value positive, decrements it back
to 0 and sets itself as holder — all before interrupts are re-enabled. -/
def lock_acquire (t : Nat) (L : RLock) : RLock :=
  if (lock_try_acquire t L).2 then (lock_try_acquire t L).1
  else { L with holder := some t, sema_value := 0 }

/-- `lock_release` (synch.c), as observed on the released lock itself:
clear the holder, reset the priority ceiling to `PRI_MIN`, and `sema_up`
the inner semaphore (increment its value). -/
def lock_release_lock (L : RLock) : RLock :=
  { holder := none, priority := PRI_MIN, sema_value := L.sema_value + 1 }

/-- The claimed lock invariant: the holder is null iff the inner
semaphore's value is 1; binary-ness of the inner semaphore (`value ≤ 1`)
is part of the invariant. -/
def LockInv (L : RLock) : Prop :=
  (L.holder = none ↔ L.sema_value = 1) ∧ L.sema_value ≤ 1

instance (L : RLock) : Decidable (LockInv L) := by
  unfold LockInv; infer_instance

/-- C7: `L.holder = none ↔ inner value = 1` holds after `lock_init` and,
at quiescent moments, is preserved by `lock_try_acquire`, `lock_acquire`
and `lock_release` (the latter requires the caller to hold the lock, per
`ASSERT (lock_held_by_current_thread (lock))`). -/
theorem lock_holder_none_iff_sema_one :
    LockInv lock_init ∧
    (∀ t L, LockInv L → LockInv (lock_try_acquire t L).1) ∧
    (∀ t L, LockInv L → LockInv (lock_acquire t L)) ∧
    (∀ L, LockInv L → L.holder ≠ none → LockInv (lock_release_lock L)) := by
  have htry : ∀ (t : Nat) (L : RLock), LockInv L → LockInv (lock_try_acquire t L).1 := by
    intro t L hL
    obtain ⟨hiff, hle⟩ := hL
    by_cases hv : L.sema_value > 0
    · have hv1 : L.sema_value = 1 := by omega
      simp [lock_try_acquire, hv, hv1, LockInv]
    · simpa [lock_try_acquire, hv, LockInv] using ⟨hiff, hle⟩
  refine ⟨by decide, htry, ?_, ?_⟩
  · intro t L hL
    by_cases hs : (lock_try_acquire t L).2
    · simpa [lock_acquire, hs] using htry t L hL
    · simp [lock_acquire, hs, LockInv]
  · intro L hL hh
    obtain ⟨hiff, hle⟩ := hL
    have hv0 : L.sema_value = 0 := by
      rcases Nat.lt_or_ge L.sema_value 1 with h | h
      · omega
      · have : L.sema_value = 1 := by omega
        exact absurd (hiff.mpr this) hh
    simp [lock_release_lock, LockInv, hv0]

/-- Witness for C7 at concrete inputs: the freshly initialized lock, a
successful try-acquire on it, a full acquire, and a release by the
holder. -/
theorem lock_holder_none_iff_sema_one_witness :
    LockInv lock_init ∧
    LockInv (lock_try_acquire 3 lock_init).1 ∧
    LockInv (lock_acquire 3 lock_init) ∧
    LockInv (lock_release_lock { holder := some 3, priority := 40, sema_value := 0 }) :=
  ⟨lock_holder_none_iff_sema_one.1,
    lock_holder_none_iff_sema_one.2.1 3 lock_init lock_holder_none_iff_sema_one.1,
    lock_holder_none_iff_sema_one.2.2.1 3 lock_init lock_holder_none_iff_sema_one.1,
    lock_holder_none_iff_sema_one.2.2.2 { holder := some 3, priority := 40, sema_value := 0 }
      (by decide) (by decide)⟩

/-! ## `lock_release` donation recomputation (synch.c) -/

/-- The traversal of the caller's `lock_list` inside `lock_release`: the
matching lock is `list_remove`d (and the loop `continue`s — `list_remove`
leaves the removed element's forward link intact, so the iteration still
visits every following entry), every other held lock raises the running
`donation_priority` maximum by its `priority` ceiling.  Returns the new
`lock_list` and the recomputed `donation_priority`. -/
def releaseLoop (tgt : Nat) (pri : Nat → Int) : List Nat → Int → List Nat × Int
  | [], don => ([], don)
  | l :: rest, don =>
    if l = tgt then releaseLoop tgt pri rest don
    else
      let r := releaseLoop tgt pri rest (max don (pri l))
      (l :: r.1, r.2)

theorem releaseLoop_eq (tgt : Nat) (pri : Nat → Int) (l : List Nat) (don : Int) :
    releaseLoop tgt pri l don =
      (l.filter (fun x => x ≠ tgt),
       (l.filter (fun x => x ≠ tgt)).foldl (fun d x => max d (pri x)) don) := by
  induction l generalizing don with
  | nil => rfl
  | cons x xs ih =>
    by_cases hx : x = tgt
    · simp [releaseLoop, hx, ih]
    · simp [releaseLoop, hx, ih]

/-- `lock_release` (synch.c), full effect on the calling thread `tid` and
the lock map: reset the caller's `donation_priority` to `PRI_MIN`, walk
the caller's `lock_list` removing the released lock `tgt` (clearing its
holder and resetting its priority ceiling) and folding the maximum of the
remaining ceilings into `donation_priority`, then `sema_up` the released
lock's inner semaphore. -/
def lock_release (tid tgt : Nat) (th : Nat → ThreadRec) (lk : Nat → RLock) :
    (Nat → ThreadRec) × (Nat → RLock) :=
  let res := releaseLoop tgt (fun l => (lk l).priority) (th tid).lock_list PRI_MIN
  (fun x => if x = tid then
      { th tid with lock_list := res.1, donation_priority := res.2 }
    else th x,
   fun x => if x = tgt then
      { holder := none, priority := PRI_MIN, sema_value := (lk tgt).sema_value + 1 }
    else lk x)

/-- C1: when `lock_release tgt` returns, `tgt`'s holder is null and its
priority ceiling is reset to `PRI_MIN`, the caller's `lock_list` has lost
exactly `tgt`, the caller's `donation_priority` is the maximum of the
remaining held locks' priority ceilings (`PRI_MIN = 0` if none remain —
any donation that flowed only through `tgt` is dropped), and the caller's
effective priority is `max(base_priority, that maximum)`. -/
theorem lock_release_recomputes_donation (tid tgt : Nat)
    (th : Nat → ThreadRec) (lk : Nat → RLock) :
    ((lock_release tid tgt th lk).2 tgt).holder = none ∧
    ((lock_release tid tgt th lk).2 tgt).priority = PRI_MIN ∧
    ((lock_release tid tgt th lk).1 tid).lock_list =
      (th tid).lock_list.filter (fun x => x ≠ tgt) ∧
    ((lock_release tid tgt th lk).1 tid).donation_priority =
      (((th tid).lock_list.filter (fun x => x ≠ tgt)).map
        (fun l => (lk l).priority)).foldl max PRI_MIN ∧
    effectivePriority ((lock_release tid tgt th lk).1 tid) =
      max (th tid).priority
        ((((th tid).lock_list.filter (fun x => x ≠ tgt)).map
          (fun l => (lk l).priority)).foldl max PRI_MIN) := by
  simp [lock_release, releaseLoop_eq, List.foldl_map, effectivePriority]

/-! ## `thread_set_priority` (threads/thread.c) -/

/-- `thread_set_priority` (threads/thread.c): stores the argument into the
caller's `priority` field and calls `thread_yield()`.  The boolean records
that the yield happened.  There is no clamping and no assertion. -/
def thread_set_priority (new_priority : Int) (t : ThreadRec) : ThreadRec × Bool :=
  ({ t with priority := new_priority }, true)

/-- C8: `thread_set_priority p` stores `p` verbatim as the caller's base
priority and yields; nothing clamps `p` to `[PRI_MIN, PRI_MAX]`, so an
out-of-range argument such as 100 or -5 becomes the base priority and
feeds unchanged into the effective-priority comparisons
(`priority_compare`): a thread set to 100 outranks a `PRI_MAX` thread,
and a thread set to -5 with no donation has effective priority -5. -/
theorem thread_set_priority_stores_verbatim (p : Int) (t : ThreadRec) :
    (thread_set_priority p t).1.priority = p ∧
    (thread_set_priority p t).1.donation_priority = t.donation_priority ∧
    (thread_set_priority p t).2 = true ∧
    effectivePriority (thread_set_priority p t).1 = max p t.donation_priority ∧
    (thread_set_priority 100 (thDefault 0)).1.priority = 100 ∧
    (thread_set_priority (-5) (thDefault 0)).1.priority = -5 ∧
    priority_compare { priority := PRI_MAX, donation_priority := PRI_MIN }
      (thread_set_priority 100 (thDefault 0)).1 = true ∧
    effectivePriority (thread_set_priority (-5) (thDefault 0)).1 = max (-5) PRI_MIN := by
  refine ⟨rfl, rfl, rfl, rfl, by decide, by decide, by decide, by decide⟩

/-! ## Nested priority donation (threads/synch.c) -/

/-- The whole-kernel state the donation walk traverses: every thread's
record and every lock's state, indexed by id. -/
structure KState where
  threads : Nat → ThreadRec
  locks : Nat → RLock

/-- The two field updates one step of `donate_priority_recursively`
performs: raise lock `l`'s priority ceiling and holder `h`'s
`donation_priority` to at least `pri` (the C ternary
`a > b ? a : b` is `max`). -/
def donateUpdate (pri : Int) (l h : Nat) (s : KState) : KState :=
  { threads := fun x => if x = h then
      { s.threads h with
        donation_priority := max (s.threads h).donation_priority pri }
    else s.threads x,
    locks := fun x => if x = l then
      { s.locks l with priority := max (s.locks l).priority pri }
    else s.locks x }

theorem donateUpdate_holder (pri : Int) (l h : Nat) (s : KState) (x : Nat) :
    ((donateUpdate pri l h s).locks x).holder = (s.locks x).holder := by
  unfold donateUpdate
  by_cases hx : x = l <;> simp [hx]

theorem donateUpdate_thread_lock (pri : Int) (l h : Nat) (s : KState) (x : Nat) :
    ((donateUpdate pri l h s).threads x).thread_lock = (s.threads x).thread_lock := by
  unfold donateUpdate
  by_cases hx : x = h <;> simp [hx]

/-- `donate_priority_recursively` (synch.c), with explicit recursion fuel:
the C function has **no depth bound**, so exhausting any finite fuel
(`none` at fuel 0) witnesses that the C recursion has not returned after
that many nested calls.  A null `lock` pointer returns immediately
(`some s`); the C code then unconditionally dereferences `lock->holder`,
so a lock with no holder is also `none` (a null-pointer fault).  Each step
raises the lock's ceiling and the holder's donated priority and recurses
on `lock->holder->thread_lock`. -/
def donate_priority_recursively (pri : Int) :
    Nat → KState → Option Nat → Option KState
  | _, s, none => some s
  | 0, _, some _ => none
  | fuel + 1, s, some l =>
    match (s.locks l).holder with
    | none => none
    | some h =>
      donate_priority_recursively pri fuel (donateUpdate pri l h s)
        (((donateUpdate pri l h s).threads h).thread_lock)

/-- `chainEndsWithin s n ol`: following the wait-for chain
`lock → lock.holder → holder.thread_lock → …` from `ol` reaches a null
lock pointer within `n` steps, every lock on the way having a holder. -/
def chainEndsWithin (s : KState) : Nat → Option Nat → Bool
  | _, none => true
  | 0, some _ => false
  | n + 1, some l =>
    match (s.locks l).holder with
    | none => false
    | some h => chainEndsWithin s n ((s.threads h).thread_lock)

/-- The wait-for chain only depends on the `holder` and `thread_lock`
fields, which `donateUpdate` leaves untouched. -/
theorem chainEndsWithin_congr (s s' : KState)
    (hh : ∀ x, (s'.locks x).holder = (s.locks x).holder)
    (hw : ∀ x, (s'.threads x).thread_lock = (s.threads x).thread_lock) :
    ∀ n ol, chainEndsWithin s' n ol = chainEndsWithin s n ol := by
  intro n
  induction n with
  | zero => intro ol; cases ol <;> rfl
  | succ n ih =>
    intro ol
    cases ol with
    | none => rfl
    | some l =>
      show chainEndsWithin s' (n + 1) (some l) = chainEndsWithin s (n + 1) (some l)
      rw [chainEndsWithin, chainEndsWithin, hh l]
      cases hc : (s.locks l).holder with
      | none => rfl
      | some h => simp only [hw h, ih]

/-- C2 (amended): whenever the wait-for chain from the contended lock
reaches a null lock pointer within `n` steps — i.e. some holder along the
chain is not itself waiting on any lock — the donation walk terminates
(`n` fuel suffices, and the walk performs its updates at every step).
There is no depth cap in the code; termination comes only from the chain
itself ending. -/
theorem donate_terminates_on_ending_chain (pri : Int) (n : Nat) (s : KState)
    (ol : Option Nat) (h : chainEndsWithin s n ol = true) :
    (donate_priority_recursively pri n s ol).isSome = true := by
  induction n generalizing s ol with
  | zero =>
    cases ol with
    | none => rfl
    | some l => exact absurd h (by simp [chainEndsWithin])
  | succ n ih =>
    cases ol with
    | none => rfl
    | some l =>
      rw [chainEndsWithin] at h
      cases hh : (s.locks l).holder with
      | none => rw [hh] at h; exact absurd h (by simp)
      | some hl =>
        rw [hh] at h
        rw [donate_priority_recursively, hh]
        apply ih
        rw [donateUpdate_thread_lock]
        rw [chainEndsWithin_congr s (donateUpdate pri l hl s)
          (donateUpdate_holder pri l hl s) (donateUpdate_thread_lock pri l hl s)]
        exact h

/-- Witness for the amended C2: a two-link acyclic chain — thread 0 holds
lock 0 and waits on lock 1, thread 1 holds lock 1 and waits on nothing —
ends within 2 steps, so the walk returns with fuel 2. -/
def acycState : KState :=
  { threads := fun t =>
      if t = 0 then { priority := 20, donation_priority := PRI_MIN, thread_lock := some 1 }
      else { priority := 25, donation_priority := PRI_MIN, thread_lock := none },
    locks := fun l =>
      if l = 0 then { holder := some 0, priority := PRI_MIN, sema_value := 0 }
      else { holder := some 1, priority := PRI_MIN, sema_value := 0 } }

theorem donate_terminates_on_ending_chain_witness :
    chainEndsWithin acycState 2 (some 0) = true ∧
    (donate_priority_recursively 40 2 acycState (some 0)).isSome = true :=
  ⟨by decide, donate_terminates_on_ending_chain 40 2 acycState (some 0) (by decide)⟩

/-- The cyclic wait-for configuration: thread 0 holds lock 0 and waits on
lock 1; thread 1 holds lock 1 and waits on lock 0. -/
def cycState : KState :=
  { threads := fun t =>
      if t = 0 then { priority := 20, donation_priority := PRI_MIN, thread_lock := some 1 }
      else { priority := 25, donation_priority := PRI_MIN, thread_lock := some 0 },
    locks := fun l =>
      if l = 0 then { holder := some 0, priority := PRI_MIN, sema_value := 0 }
      else { holder := some 1, priority := PRI_MIN, sema_value := 0 } }

/-- The shape of the cycle, stable under the walk's priority updates. -/
def CycShape (s : KState) : Prop :=
  (s.locks 0).holder = some 0 ∧ (s.locks 1).holder = some 1 ∧
  (s.threads 0).thread_lock = some 1 ∧ (s.threads 1).thread_lock = some 0

theorem donate_cyc_none (pri : Int) :
    ∀ n (s : KState), CycShape s →
      donate_priority_recursively pri n s (some 0) = none ∧
      donate_priority_recursively pri n s (some 1) = none := by
  intro n
  induction n with
  | zero => exact fun s _ => ⟨rfl, rfl⟩
  | succ n ih =>
    intro s hs
    obtain ⟨h0, h1, w0, w1⟩ := hs
    have shape' : ∀ l h : Nat, CycShape (donateUpdate pri l h s) := by
      intro l h
      refine ⟨?_, ?_, ?_, ?_⟩ <;>
        simp [donateUpdate_holder, donateUpdate_thread_lock, h0, h1, w0, w1]
    constructor
    · rw [donate_priority_recursively, h0]
      dsimp only
      rw [donateUpdate_thread_lock, w0]
      exact (ih (donateUpdate pri 0 0 s) (shape' 0 0)).2
    · rw [donate_priority_recursively, h1]
      dsimp only
      rw [donateUpdate_thread_lock, w1]
      exact (ih (donateUpdate pri 1 1 s) (shape' 1 1)).1

/-- C2 counterexample: on the cyclic wait-for chain of `cycState` the
donation walk never returns, however much fuel it is given — the code has
no depth cap (and no null-holder guard), so a cyclic chain does hang the
kernel, contrary to the claim. -/
theorem donation_walk_cycle_never_terminates :
    ¬ ∃ n : Nat, (donate_priority_recursively 40 n cycState (some 0)).isSome = true := by
  rintro ⟨n, hn⟩
  have hc : CycShape cycState := ⟨rfl, rfl, rfl, rfl⟩
  rw [(donate_cyc_none 40 n cycState hc).1] at hn
  exact absurd hn (by simp)

/-! ## Condition variables (threads/synch.c)

Each `semaphore_elem` waiter owns a private semaphore on which exactly one
thread sleeps, so a condvar waiter is modelled by that single thread's
record (`list_front(&waiter->semaphore.waiters)`). -/

/-- `cond_priority_cmp` (synch.c): compares the **base** `priority` fields
of the single thread at the front of each waiter's semaphore — note it
reads `->priority`, not the effective `max(priority, donation_priority)`
that `thread_priority_compare` uses. -/
def cond_priority_cmp (a b : ThreadRec) : Bool :=
  decide (b.priority < a.priority)

/-- Insertion step of the sort: place `e` before the first element it
compares ahead of. -/
def list_insert_sorted (less : α → α → Bool) (e : α) : List α → List α
  | [] => [e]
  | x :: xs => if less e x then e :: x :: xs else x :: list_insert_sorted less e xs

/-- Modelled from the spec: `list_sort` of `lib/kernel/list.c` is not
under `src/`; the spec only requires that `cond_signal` "re-sort the
list" by the given comparator, so it is modelled as a stable insertion
sort driven by the comparator from the source (`cond_priority_cmp`). -/
def list_sort (less : α → α → Bool) : List α → List α
  | [] => []
  | x :: xs => list_insert_sorted less x (list_sort less xs)

theorem mem_list_insert_sorted (less : α → α → Bool) (e : α) (l : List α) (y : α) :
    y ∈ list_insert_sorted less e l ↔ y = e ∨ y ∈ l := by
  induction l with
  | nil => simp [list_insert_sorted]
  | cons x xs ih =>
    by_cases hc : less e x
    · simp [list_insert_sorted, hc]
    · simp [list_insert_sorted, hc, ih]
      tauto

theorem mem_list_sort (less : α → α → Bool) (l : List α) (y : α) :
    y ∈ list_sort less l ↔ y ∈ l := by
  induction l with
  | nil => simp [list_sort]
  | cons x xs ih => simp [list_sort, mem_list_insert_sorted, ih]

theorem length_list_insert_sorted (less : α → α → Bool) (e : α) (l : List α) :
    (list_insert_sorted less e l).length = l.length + 1 := by
  induction l with
  | nil => rfl
  | cons x xs ih =>
    by_cases hc : less e x <;> simp [list_insert_sorted, hc, ih]

theorem length_list_sort (less : α → α → Bool) (l : List α) :
    (list_sort less l).length = l.length := by
  induction l with
  | nil => rfl
  | cons x xs ih => simp [list_sort, length_list_insert_sorted, ih]

/-- Sortedness of the condvar sort: descending in base priority. -/
theorem pairwise_list_insert_sorted_cond (e : ThreadRec) (l : List ThreadRec)
    (h : l.Pairwise (fun a b => b.priority ≤ a.priority)) :
    (list_insert_sorted cond_priority_cmp e l).Pairwise
      (fun a b => b.priority ≤ a.priority) := by
  induction l with
  | nil => simp [list_insert_sorted]
  | cons x xs ih =>
    rw [List.pairwise_cons] at h
    obtain ⟨hx, hxs⟩ := h
    by_cases hc : cond_priority_cmp e x
    · have hex : x.priority < e.priority := by
        simpa [cond_priority_cmp] using hc
      simp only [list_insert_sorted, hc, if_true]
      refine List.Pairwise.cons ?_ (List.Pairwise.cons hx hxs)
      intro y hy
      rcases List.mem_cons.1 hy with rfl | hy
      · exact le_of_lt hex
      · exact le_trans (hx y hy) (le_of_lt hex)
    · have hex : e.priority ≤ x.priority := by
        simpa [cond_priority_cmp] using hc
      simp only [list_insert_sorted, hc, if_false, Bool.false_eq_true]
      refine List.Pairwise.cons ?_ (ih hxs)
      intro y hy
      rcases (mem_list_insert_sorted _ _ _ _).1 hy with rfl | hy
      · exact hex
      · exact hx y hy

theorem pairwise_list_sort_cond (l : List ThreadRec) :
    (list_sort cond_priority_cmp l).Pairwise (fun a b => b.priority ≤ a.priority) := by
  induction l with
  | nil => simp [list_sort]
  | cons x xs ih => exact pairwise_list_insert_sorted_cond x _ ih

/-- `cond_signal` (synch.c): if the waiter list is non-empty, `list_sort`
it with `cond_priority_cmp`, `list_pop_front` the first waiter and
`sema_up` its private semaphore (waking its single thread); then, outside
interrupt context, `thread_yield`.  Returns the remaining waiter list,
the woken waiter's thread (if any), and whether the call yielded. -/
def cond_signal (intr : Bool) (c : List ThreadRec) :
    List ThreadRec × Option ThreadRec × Bool :=
  match c with
  | [] => ([], none, !intr)
  | x :: xs =>
    ((list_sort cond_priority_cmp (x :: xs)).tail,
     (list_sort cond_priority_cmp (x :: xs)).head?, !intr)

theorem cond_signal_length (intr : Bool) (c : List ThreadRec) (h : c ≠ []) :
    (cond_signal intr c).1.length < c.length := by
  match c with
  | [] => exact absurd rfl h
  | x :: xs =>
    have hlen := length_list_sort cond_priority_cmp (x :: xs)
    simp only [cond_signal, List.length_tail, hlen]
    simp

/-- `cond_broadcast` (synch.c): `cond_signal` until the waiter list is
empty.  Returns the final waiter list, the number of `cond_signal` calls
made, and the number of yields performed. -/
def cond_broadcast (intr : Bool) (c : List ThreadRec) :
    List ThreadRec × Nat × Nat :=
  if h : c = [] then ([], 0, 0)
  else
    have := cond_signal_length intr c h
    let r := cond_signal intr c
    have hr : r.1.length < c.length := this
    let b := cond_broadcast intr r.1
    (b.1, b.2.1 + 1, b.2.2 + (if r.2.2 then 1 else 0))
termination_by c.length

/-- C10: `cond_signal` on an empty condition variable wakes no thread and
leaves the list empty, yet outside interrupt context it still calls
`thread_yield` (it is not a pure no-op; in interrupt context it skips the
yield), whereas `cond_broadcast` on an empty condition variable performs
zero `cond_signal` calls and zero yields. -/
theorem cond_signal_empty_yields_broadcast_empty_noop (intr : Bool) :
    cond_signal intr [] = ([], none, !intr) ∧
    cond_signal false [] = ([], none, true) ∧
    cond_broadcast intr [] = ([], 0, 0) := by
  refine ⟨rfl, rfl, ?_⟩
  rw [cond_broadcast]
  simp

/-- C4 (amended): for every non-empty condvar waiter list, `cond_signal`
re-sorts the list by the **base** priority of each waiter's single
waiting thread (donated priority is ignored by `cond_priority_cmp`) and
ups the front waiter's semaphore, so a waiter whose thread has maximal
base priority at signal time is woken first. -/
theorem cond_signal_wakes_highest_base_priority (intr : Bool)
    (c : List ThreadRec) (h : c ≠ []) :
    ∃ t rest, cond_signal intr c = (rest, some t, !intr) ∧ t ∈ c ∧
      (∀ u ∈ c, u.priority ≤ t.priority) := by
  match c with
  | [] => exact absurd rfl h
  | x :: xs =>
    have hlen := length_list_sort cond_priority_cmp (x :: xs)
    match hs : list_sort cond_priority_cmp (x :: xs) with
    | [] => rw [hs] at hlen; simp at hlen
    | t :: ts =>
      refine ⟨t, ts, by simp [cond_signal, hs], ?_, ?_⟩
      · have : t ∈ list_sort cond_priority_cmp (x :: xs) := by rw [hs]; simp
        exact (mem_list_sort _ _ _).1 this
      · intro u hu
        have hu' : u ∈ t :: ts := by
          rw [← hs]; exact (mem_list_sort _ _ _).2 hu
        have hp := pairwise_list_sort_cond (x :: xs)
        rw [hs, List.pairwise_cons] at hp
        rcases List.mem_cons.1 hu' with rfl | hu'
        · exact le_refl _
        · exact hp.1 u hu'

/-- Witness for the amended C4 at a concrete input. -/
theorem cond_signal_wakes_highest_base_priority_witness :
    ∃ t rest,
      cond_signal false
        [{ priority := 10, donation_priority := PRI_MIN },
         { priority := 20, donation_priority := PRI_MIN }] = (rest, some t, !false) ∧
      t ∈ [({ priority := 10, donation_priority := PRI_MIN } : ThreadRec),
           { priority := 20, donation_priority := PRI_MIN }] ∧
      (∀ u ∈ [({ priority := 10, donation_priority := PRI_MIN } : ThreadRec),
              { priority := 20, donation_priority := PRI_MIN }],
        u.priority ≤ t.priority) :=
  cond_signal_wakes_highest_base_priority false
    [{ priority := 10, donation_priority := PRI_MIN },
     { priority := 20, donation_priority := PRI_MIN }] (by decide)

/-- C4 counterexample: two waiters — thread A with base 10 but donated 50
(effective 50), thread B with base 20 and no donation (effective 20).
The claim says the waiter of highest *effective* priority (A) is woken;
`cond_signal` sorts by base priority and wakes B instead. -/
theorem cond_signal_ignores_donation :
    (cond_signal false
      [{ priority := 10, donation_priority := 50 },
       { priority := 20, donation_priority := PRI_MIN }]).2.1 =
      some { priority := 20, donation_priority := PRI_MIN } ∧
    effectivePriority { priority := 20, donation_priority := PRI_MIN } <
      effectivePriority { priority := 10, donation_priority := 50 } := by
  constructor
  · rfl
  · decide

/-! ## No duplicate waiter entries (sema_down / sema_up, synch.c) -/

/-- Where a thread stands in one semaphore's protocol: outside any
`sema_down` call, enlisted on `waiters` and blocked inside the `while`
loop, or woken by `sema_up` (already removed from the list) and about to
re-check `value`. -/
inductive Phase
  | outside
  | blocked
  | woken
  deriving Repr, DecidableEq

/-- A semaphore together with every thread's phase in its protocol. -/
structure S9 where
  value : Nat
  waiters : List Nat
  phase : Nat → Phase

/-- Initial state: counter `v`, nobody waiting. -/
def S9.init (v : Nat) : S9 :=
  { value := v, waiters := [], phase := fun _ => Phase.outside }

/-- The interrupts-disabled steps of the semaphore code.  `enqueue`: a
thread not currently enlisted finds `value = 0` in `sema_down`'s `while`
loop, `list_push_back`s itself and blocks (first iteration, or re-entry
after a wake that found the value stolen).  `wake`: `sema_up` on a
non-empty list removes the max-priority entry *before* unblocking it,
then increments `value`.  `upEmpty`: `sema_up` with no waiters just
increments.  `exitLoop`: a woken thread finds `value > 0`, decrements it
and returns from `sema_down`.  `tryDown`: a successful `sema_try_down`. -/
inductive Step9 (th : Nat → ThreadRec) : S9 → S9 → Prop
  | enqueue (s : S9) (t : Nat) :
      s.value = 0 → s.phase t ≠ Phase.blocked →
      Step9 th s { value := s.value, waiters := s.waiters ++ [t],
                   phase := fun x => if x = t then Phase.blocked else s.phase x }
  | wake (s : S9) (t : Nat) (rest : List Nat) :
      extractMax (semaKey th) s.waiters = some (t, rest) →
      Step9 th s { value := s.value + 1, waiters := rest,
                   phase := fun x => if x = t then Phase.woken else s.phase x }
  | upEmpty (s : S9) :
      s.waiters = [] →
      Step9 th s { value := s.value + 1, waiters := s.waiters, phase := s.phase }
  | exitLoop (s : S9) (t : Nat) :
      s.phase t = Phase.woken → s.value > 0 →
      Step9 th s { value := s.value - 1, waiters := s.waiters,
                   phase := fun x => if x = t then Phase.outside else s.phase x }
  | tryDown (s : S9) :
      s.value > 0 →
      Step9 th s { value := s.value - 1, waiters := s.waiters, phase := s.phase }

/-- The protocol invariant: the waiter list has no duplicates, and a
thread is on it exactly when its phase is `blocked`. -/
def Inv9 (s : S9) : Prop :=
  s.waiters.Nodup ∧ ∀ t, t ∈ s.waiters ↔ s.phase t = Phase.blocked

theorem Inv9_init (v : Nat) : Inv9 (S9.init v) := by
  exact ⟨List.nodup_nil, by intro t; simp [S9.init]⟩

theorem Inv9_preserved (th : Nat → ThreadRec) (s s' : S9)
    (hInv : Inv9 s) (hstep : Step9 th s s') : Inv9 s' := by
  obtain ⟨hnd, hmem⟩ := hInv
  cases hstep with
  | enqueue t hv hp =>
    have hnot : t ∉ s.waiters := fun hin => hp ((hmem t).1 hin)
    constructor
    · simp [List.nodup_append, hnd, hnot]
    · intro x
      by_cases hx : x = t
      · subst hx; simp
      · simp only [List.mem_append, List.mem_singleton, hx, or_false, if_neg hx]
        exact hmem x
  | wake t rest hex =>
    obtain ⟨pre, post, hsplit, hrest, _, _⟩ := extractMax_spec _ _ _ _ hex
    have hnd' : (t :: (pre ++ post)).Nodup := by
      rw [← List.nodup_middle, ← hsplit]; exact hnd
    rw [List.nodup_cons] at hnd'
    obtain ⟨htnotin, hndrest⟩ := hnd'
    constructor
    · rw [hrest]; exact hndrest
    · intro x
      by_cases hx : x = t
      · subst hx
        simp only [if_pos rfl, hrest]
        constructor
        · intro hin; exact absurd hin htnotin
        · intro hcon; cases hcon
      · simp only [if_neg hx, hrest]
        have hx1 : x ∈ pre ++ post ↔ x ∈ s.waiters := by
          rw [hsplit]
          simp only [List.mem_append, List.mem_cons]
          tauto
        rw [hx1]; exact hmem x
  | upEmpty hw =>
    exact ⟨hnd, hmem⟩
  | exitLoop t hp hv =>
    have hnot : t ∉ s.waiters := by
      intro hin
      have := (hmem t).1 hin
      rw [hp] at this; cases this
    constructor
    · exact hnd
    · intro x
      by_cases hx : x = t
      · subst hx
        simp only [if_pos rfl]
        constructor
        · intro hin; exact absurd hin hnot
        · intro hcon; cases hcon
      · simp only [if_neg hx]; exact hmem x
  | tryDown hv =>
    exact ⟨hnd, hmem⟩

/-- C9: in every state reachable by the semaphore protocol's steps from
an initial state, each thread occupies at most one entry of the waiter
list (the list has no duplicates): `sema_up` removes a thread's entry
before unblocking it, and a thread re-appends itself only from within
`sema_down`'s wait loop after finding `value = 0` again, so a
wake-then-steal race never leaves a duplicate entry. -/
theorem sema_waiters_no_duplicates (th : Nat → ThreadRec) (v : Nat) (s : S9)
    (h : Relation.ReflTransGen (Step9 th) (S9.init v) s) :
    s.waiters.Nodup := by
  have hInv : Inv9 s := by
    induction h with
    | refl => exact Inv9_init v
    | tail hab hbc ih => exact Inv9_preserved th _ _ ih hbc
  exact hInv.1

/-- Witness for C9: from `S9.init 0`, thread 4 enqueues itself
(`value = 0`), and the resulting waiter list `[4]` has no duplicates. -/
theorem sema_waiters_no_duplicates_witness : ([4] : List Nat).Nodup :=
  sema_waiters_no_duplicates thDefault 0
    { value := 0, waiters := [4],
      phase := fun x => if x = 4 then Phase.blocked else Phase.outside }
    (Relation.ReflTransGen.tail Relation.ReflTransGen.refl
      (Step9.enqueue (S9.init 0) 4 rfl (by decide)))
